import Mathlib

/-!
Verification of the AIRBud retrieval core: a shallow embedding of the
hierarchical parent/child chunker, the parent-deduplicated vector search,
the collection-level result merging, the answer-prompt assembly, the
query-reword fallback, the persisted-state loader and the LRU state cache
(services/rag_core: src/core/chunking.py, src/core/pipeline.py,
src/core/rag_pipeline.py, src/core/llm.py, main.py), together with proofs
of the specification's claims about them.

Python strings are modelled as Lean `String`; Python dicts that preserve
insertion order (including `collections.OrderedDict`) are modelled as
association lists `List (key × value)`; `uuid4` identifiers, whose only
relevant property is freshness, are modelled by a monotonically increasing
natural-number counter threaded through the chunking pass; IEEE-754
distances returned by the FAISS index are modelled as rationals (the
search/merge code only compares them, and the order embedding of non-NaN
floats into `ℚ` is faithful); raised exceptions are modelled with
`Except String`.
-/

namespace AIRBud

/-! ## String helpers -/

/-- Occurrence test: `small` occurs as a contiguous segment of `big`
(models Python `small in big` / `re.search(re.escape(small), big)`). -/
def segOccurs : (big small : List Char) → Bool
  | big, small =>
    small.isPrefixOf big ||
      match big with
      | [] => false
      | _ :: t => segOccurs t small

/-- Contiguous-segment containment as a proposition: `small` occurs inside
`big` at some position. -/
def ContainsSeg (big small : String) : Prop :=
  ∃ pre post : List Char, big.data = pre ++ small.data ++ post

/-- Last `/`-separated component of a path (models `os.path.basename` on
POSIX paths as used by the chunker). -/
def basename (s : String) : String :=
  String.mk ((s.data.reverse.takeWhile (· ≠ '/')).reverse)

/-- Numeric value of a digit string (models Python `int` on the digit-only
strings reachable from the page-marker format). -/
def digitsToNat (cs : List Char) : Nat :=
  cs.foldl (fun n c => n * 10 + (c.toNat - 48)) 0

/-- Whitespace strip (models Python `str.strip()`; defined on the
character list so the kernel can evaluate it). -/
def strTrim (s : String) : String :=
  String.mk (((s.data.dropWhile Char.isWhitespace).reverse.dropWhile
    Char.isWhitespace).reverse)

/-- Split a character list on a non-empty separator, leftmost-first and
non-overlapping; every recursive call consumes at least one character so
`fuel ≥ cs.length` gives the untruncated behaviour. -/
def splitOnChars (sep : List Char) : Nat → List Char → List Char → List (List Char)
  | 0, acc, _ => [acc.reverse]
  | _ + 1, acc, [] => [acc.reverse]
  | fuel + 1, acc, c :: rest =>
    if sep.isPrefixOf (c :: rest) then
      acc.reverse :: splitOnChars sep fuel [] ((c :: rest).drop sep.length)
    else splitOnChars sep fuel (c :: acc) rest

/-- String split on a non-empty literal separator (models `re.split` on an
escaped separator, equivalently Python `str.split(sep)`). -/
def strSplitOn (text sep : String) : List String :=
  (splitOnChars sep.data text.data.length [] text.data).map String.mk

/-- Join character lists with a separator. -/
def joinChars (sep : List Char) : List (List Char) → List Char
  | [] => []
  | [x] => x
  | x :: y :: rest => x ++ sep ++ joinChars sep (y :: rest)

/-- Separator join (models Python `separator.join(docs)`). -/
def strIntercalate (sep : String) (l : List String) : String :=
  String.mk (joinChars sep.data (l.map String.data))

/-- Replace every non-overlapping occurrence of a non-empty pattern,
leftmost-first (models Python `str.replace` for the non-empty patterns the
pipeline uses). -/
def replaceChars (pat repl : List Char) : Nat → List Char → List Char
  | 0, cs => cs
  | _ + 1, [] => []
  | fuel + 1, c :: rest =>
    if pat.isPrefixOf (c :: rest) then
      repl ++ replaceChars pat repl fuel ((c :: rest).drop pat.length)
    else c :: replaceChars pat repl fuel rest

/-- String replacement wrapper; an empty pattern (unreachable in the
pipeline) leaves the string unchanged. -/
def strReplace (s pat repl : String) : String :=
  if pat = "" then s
  else String.mk (replaceChars pat.data repl.data s.data.length s.data)

/-! ## Recursive character text splitter

Modelled from the spec: the chunker delegates to an external recursive
character text splitter (langchain `RecursiveCharacterTextSplitter`, not
part of this repository) that splits "using a target size with overlap,
using ordered separator preference (paragraph break → line break →
sentence → space → hard cut) so natural boundaries are preferred over hard
character cuts". The definitions below are a faithful executable reference
model of that splitter with the repository's configuration
(literal separators, separators kept and attached to the following piece,
chunks whitespace-stripped on join). -/

/-- Walk the separator preference list: return the first separator that is
empty or occurs in the text, together with the remaining (finer)
separators; fall back to the last separator with no finer ones. -/
def findSepAux (text dflt : String) : List String → String × List String
  | [] => (dflt, [])
  | s :: rest =>
    if s = "" then ("", [])
    else if segOccurs text.data s.data then (s, rest)
    else findSepAux text dflt rest

/-- Choose the separator for one splitting level. -/
def findSep (seps : List String) (text : String) : String × List String :=
  match seps.getLast? with
  | none => ("", [])
  | some dflt => findSepAux text dflt seps

/-- Split on a separator keeping the separator attached to the following
piece (the splitter is configured with `keep_separator=True`); empty
pieces are dropped. An empty separator splits into single characters. -/
def splitWithSep (text : String) (sep : String) : List String :=
  if sep ≠ "" then
    match strSplitOn text sep with
    | [] => []
    | a0 :: rest => (a0 :: rest.map (fun a => sep ++ a)).filter (· ≠ "")
  else
    (text.data.map (fun c => String.mk [c])).filter (· ≠ "")

/-- Join accumulated pieces with the separator and strip whitespace;
an all-whitespace result joins to nothing. -/
def joinDocs (docs : List String) (sep : String) : Option String :=
  let text := strTrim (strIntercalate sep docs)
  if text = "" then none else some text

/-- Drop pieces from the front of the running window until the kept total
is within the overlap budget and the next piece fits (the splitter's
overlap `while` loop; with an empty window the loop condition is always
false, so the base case is unreachable with the loop's invariant). -/
def popLoop (cs co sepLen : Nat) (lenNext : Int) :
    List String → Int → List String × Int
  | [], total => ([], total)
  | d :: cur, total =>
    if total > (co : Int) ∨
        (total + lenNext + (sepLen : Int) > (cs : Int) ∧ total > 0) then
      popLoop cs co sepLen lenNext cur
        (total - ((d.length : Int) + if cur.isEmpty then 0 else (sepLen : Int)))
    else (d :: cur, total)

/-- Merge small pieces into chunks of at most `cs` characters with `co`
characters of overlap carried between consecutive chunks. -/
def mergeLoop (cs co sepLen : Nat) (sep : String) :
    List String → List String → Int → List String → List String
  | [], cur, _, docs => docs ++ (joinDocs cur sep).toList
  | d :: rest, cur, total, docs =>
    let lenD : Int := d.length
    if total + lenD + (if cur.isEmpty then 0 else (sepLen : Int)) > (cs : Int) then
      if cur.isEmpty then
        mergeLoop cs co sepLen sep rest (cur ++ [d])
          (total + lenD + (if (cur ++ [d]).length > 1 then (sepLen : Int) else 0)) docs
      else
        let docs1 := docs ++ (joinDocs cur sep).toList
        let (cur1, total1) := popLoop cs co sepLen lenD cur total
        mergeLoop cs co sepLen sep rest (cur1 ++ [d])
          (total1 + lenD + (if (cur1 ++ [d]).length > 1 then (sepLen : Int) else 0)) docs1
    else
      mergeLoop cs co sepLen sep rest (cur ++ [d])
        (total + lenD + (if (cur ++ [d]).length > 1 then (sepLen : Int) else 0)) docs

/-- Merge a run of under-sized splits into output chunks. -/
def mergeSplits (cs co : Nat) (splits : List String) (sep : String) : List String :=
  mergeLoop cs co sep.length sep splits [] 0 []

/-- Accumulate under-sized splits and merge them; hand over-sized splits
to `handle` (which either keeps them whole or re-splits them with the
finer separators). -/
def goSplits (cs co : Nat) (handle : String → List String) :
    List String → List String → List String → List String
  | [], goods, final => final ++ (if goods.isEmpty then [] else mergeSplits cs co goods "")
  | s :: rest, goods, final =>
    if s.length < cs then goSplits cs co handle rest (goods ++ [s]) final
    else
      let final1 := final ++ (if goods.isEmpty then [] else mergeSplits cs co goods "")
      goSplits cs co handle rest [] (final1 ++ handle s)

/-- The recursive splitting pass: pick the coarsest applicable separator,
split, merge under-sized pieces, and recurse with finer separators on
over-sized pieces. The `fuel` argument makes the recursion structural
(hence kernel-evaluable); each nested call strictly shrinks the separator
list, so any `fuel ≥ seps.length` gives the untruncated behaviour, and a
call with an empty separator list is unreachable from the top level. -/
def splitTextFuel (cs co : Nat) : Nat → List String → String → List String
  | 0, _, _ => []
  | _ + 1, [], _ => []
  | fuel + 1, s0 :: rest0, text =>
    let sn := findSep (s0 :: rest0) text
    let splits := splitWithSep text sn.1
    goSplits cs co
      (fun s => if sn.2.isEmpty then [s] else splitTextFuel cs co fuel sn.2 s)
      splits [] []

/-- The repository's separator preference list. -/
def SEPS : List String := ["\n\n", "\n", ". ", " ", ""]

/-- One configured splitter: `split_text` with the repository's separator
list, a chunk-size target and an overlap. -/
def refSplit (cs co : Nat) (text : String) : List String :=
  splitTextFuel cs co SEPS.length SEPS text

/-! ## Chunk data model (src/core/data_models.py) -/

/-- Immutable unit of indexed text. `chunk_id`/`parent_id` are the
counter-modelled UUIDs; `meta_index` is the only key the chunker ever puts
in `metadata` (the parent ordinal within its page segment). -/
structure Chunk where
  text : String
  source : String
  page : Nat
  chunk_id : Nat
  parent_id : Option Nat := none
  is_parent : Bool := false
  meta_index : Option Nat := none
deriving DecidableEq, Repr

/-! ## Document chunker (src/core/chunking.py) -/

/-- Maximum document size in characters (`MAX_DOCUMENT_SIZE_CHARS`,
defaulted to `500 * 1024 * 1024` because the setting is absent from
`src/config.py`). -/
def MAX_DOCUMENT_SIZE_CHARS : Nat := 500 * 1024 * 1024

/-- Match the page-marker pattern `## Page \d+` at the head of the text;
on success return the marker's characters and the rest of the text
(the `\d+` is greedy, as in the compiled regex). -/
def matchMarkerAt (cs : List Char) : Option (List Char × List Char) :=
  let lit := "## Page ".data
  if lit.isPrefixOf cs then
    let rest := cs.drop lit.length
    let ds := rest.takeWhile Char.isDigit
    if ds.isEmpty then none
    else some (lit ++ ds, rest.drop ds.length)
  else none

/-- Split the text on page markers, keeping the markers (models
`re.split` with the capturing pattern `(## Page \d+)`): the result
alternates content, marker, content, marker, …, content. Every recursive
call consumes at least one character (a marker match consumes at least
nine), so any `fuel ≥ cs.length` gives the untruncated behaviour and the
`fuel = 0` case is only reached with `cs = []`. -/
def splitMarkersFuel : Nat → List Char → List Char → List (List Char)
  | 0, acc, _ => [acc.reverse]
  | _ + 1, acc, [] => [acc.reverse]
  | fuel + 1, acc, c :: rest =>
    match matchMarkerAt (c :: rest) with
    | some (mk, after) => acc.reverse :: mk :: splitMarkersFuel fuel [] after
    | none => splitMarkersFuel fuel (c :: acc) rest

/-- Page-marker split of a whole document. -/
def pageSplit (text : String) : List String :=
  (splitMarkersFuel text.data.length [] text.data).map String.mk

/-- Does a part begin with a page marker (models
`PAGE_MARKER_PATTERN.match(part)`). -/
def isMarker (s : String) : Bool :=
  (matchMarkerAt s.data).isSome

/-- Extract the page number of a marker part: take the last
space-separated token (`part.rsplit(' ', 1)[-1]`) and parse it as an
integer; `none` models the caught `ValueError`. -/
def parsePage (s : String) : Option Nat :=
  let tok := (s.data.reverse.takeWhile (· ≠ ' ')).reverse
  if !tok.isEmpty && tok.all Char.isDigit then some (digitsToNat tok) else none

/-- The chunker's two configured splitters (the source holds two
`RecursiveCharacterTextSplitter` instances built in
`DocumentChunker.__init__`). -/
structure Chunker where
  parentSplit : String → List String
  childSplit : String → List String

/-- The default chunker: parent splitter sized 2000 with overlap 200,
child splitter sized 400 with overlap 50, both over `SEPS`. -/
def defaultChunker : Chunker :=
  ⟨refSplit 2000 200, refSplit 400 50⟩

/-- State threaded through a chunking pass: parent map (insertion-ordered,
as a Python dict), accumulated child list, and the next fresh id. -/
structure ChunkState where
  parent_map : List (Nat × Chunk)
  child_chunks : List Chunk
  nextId : Nat
deriving Repr

/-- Append the child chunks of one parent (inner loop of
`_chunk_page_text`). -/
def chunkChildren (source : String) (page pid : Nat) :
    List String → List Chunk → Nat → List Chunk × Nat
  | [], cc, nid => (cc, nid)
  | t :: rest, cc, nid =>
    chunkChildren source page pid rest
      (cc ++ [{ text := t, source := source, page := page, chunk_id := nid,
                parent_id := some pid, is_parent := false }]) (nid + 1)

/-- Create the parent chunks of one page segment and their children
(outer loop of `_chunk_page_text`). -/
def chunkParents (ck : Chunker) (source : String) (page : Nat) :
    List String → Nat → ChunkState → ChunkState
  | [], _, st => st
  | t :: rest, pIdx, st =>
    let pid := st.nextId
    let pchunk : Chunk :=
      { text := t, source := source, page := page, chunk_id := pid,
        parent_id := none, is_parent := true, meta_index := some pIdx }
    let r :=
      chunkChildren source page pid (ck.childSplit t) st.child_chunks (st.nextId + 1)
    chunkParents ck source page rest (pIdx + 1)
      ⟨st.parent_map ++ [(pid, pchunk)], r.1, r.2⟩

/-- Process a single page's text into parent and child chunks
(`DocumentChunker._chunk_page_text`). -/
def chunkPageText (ck : Chunker) (text source : String) (page : Nat)
    (st : ChunkState) : ChunkState :=
  chunkParents ck source page (ck.parentSplit text) 0 st

/-- The part-walking loop of `DocumentChunker.process`: marker parts
update the current page and chunk the immediately following content part;
other non-blank parts are chunked under the current page. -/
def walkParts (ck : Chunker) (filename : String) :
    List String → Nat → ChunkState → ChunkState
  | [], _, st => st
  | part :: rest, curPage, st =>
    if isMarker part then
      let newPage := (parsePage part).getD curPage
      match rest with
      | content :: rest2 =>
        let st1 := if strTrim content ≠ "" then
            chunkPageText ck content filename newPage st
          else st
        walkParts ck filename rest2 newPage st1
      | [] => st
    else
      let st1 := if strTrim part ≠ "" then
          chunkPageText ck part filename curPage st
        else st
      walkParts ck filename rest curPage st1

/-- `DocumentChunker.process`: validate size, split on page markers, chunk
each part. Returns `(child_chunks, parent_map)`; `Except.error` models the
raised `ValueError`. -/
def process (ck : Chunker) (text source : String) :
    Except String (List Chunk × List (Nat × Chunk)) :=
  if text = "" then .ok ([], [])
  else if text.length > MAX_DOCUMENT_SIZE_CHARS then
    .error "Document too large to process safely."
  else
    let st := walkParts ck (basename source) (pageSplit text) 0 ⟨[], [], 0⟩
    .ok (st.child_chunks, st.parent_map)

/-! ## Vector search (src/core/pipeline.py, `SmartRAG.search`) -/

/-- Pipeline state at query time: the FAISS index (modelled by the
candidate list it returns for a requested neighbour count — pairs of
distance and child-array position, `-1` positions padding an underfull
index), the ordered child-chunk list and the parent map. `index = none`
models an unbuilt/unloaded index. -/
structure RAGState where
  index : Option (Nat → List (Rat × Int))
  child_chunks : List Chunk
  parent_map : List (Nat × Chunk)

/-- Placeholder for the (unreachable) out-of-bounds list read: the loop
below only dereferences positions it has bounds-checked. -/
def dummyChunk : Chunk :=
  { text := "", source := "", page := 0, chunk_id := 0 }

/-- The candidate-walking loop of `SmartRAG.search`: skip invalid
positions, resolve each hit's parent, emit each resolvable parent at most
once with the hit's distance, fall back to the child when no parent
resolves, and stop as soon as `top_k` results are emitted. -/
def searchLoop (cc : List Chunk) (pm : List (Nat × Chunk)) (top_k : Nat) :
    List (Rat × Int) → List (Chunk × Rat) → List Nat → List (Chunk × Rat)
  | [], results, _ => results
  | (dist, idx) :: rest, results, seen =>
    if idx < 0 ∨ (cc.length : Int) ≤ idx then
      searchLoop cc pm top_k rest results seen
    else
      let child := cc.getD idx.toNat dummyChunk
      let step : List (Chunk × Rat) × List Nat :=
        match child.parent_id with
        | some pid =>
          match pm.lookup pid with
          | some parent =>
            if pid ∈ seen then (results, seen)
            else (results ++ [(parent, dist)], seen ++ [pid])
          | none => (results ++ [(child, dist)], seen)
        | none => (results ++ [(child, dist)], seen)
      if top_k ≤ step.1.length then step.1
      else searchLoop cc pm top_k rest step.1 step.2

/-- `SmartRAG.search`: return `[]` when no index is loaded or no child
chunks exist; otherwise fetch `top_k * 3` candidates from the index and
walk them through the dedup loop. -/
def search (st : RAGState) (top_k : Nat) : List (Chunk × Rat) :=
  match st.index with
  | none => []
  | some idxf =>
    if st.child_chunks.isEmpty then []
    else searchLoop st.child_chunks st.parent_map top_k (idxf (top_k * 3)) [] []

/-! ## Collection-level merge (main.py `query_collection`,
src/core/rag_pipeline.py `SmartRAG.query_multiple`) -/

/-- Ascending comparison on the distance component. -/
def distLe (a b : Chunk × Rat) : Prop := a.2 ≤ b.2

instance : DecidableRel distLe := fun a b => inferInstanceAs (Decidable (a.2 ≤ b.2))

instance : IsTotal (Chunk × Rat) distLe := ⟨fun a b => le_total a.2 b.2⟩

instance : IsTrans (Chunk × Rat) distLe := ⟨fun _ _ _ => le_trans⟩

/-- Stable ascending sort by distance (Python `list.sort` with
`key=lambda x: x[1]` is a stable sort, and every stable sort computes the
same list, here realised by insertion sort). -/
def sortByDistance (l : List (Chunk × Rat)) : List (Chunk × Rat) :=
  List.insertionSort distLe l

/-- Collection-level retrieval: fan the query out to every document's
`search` with per-document `top_k = 3`, concatenate, sort ascending by
distance and truncate to the global `top_k` (5 in `query_collection`). -/
def queryMultiple (pipelines : List RAGState) (top_k : Nat) : List (Chunk × Rat) :=
  (sortByDistance ((pipelines.map (fun p => search p 3)).flatten)).take top_k

/-! ## Answer-prompt assembly (src/core/pipeline.py,
`SmartRAG.generate_answer`) -/

/-- One vector hit rendered into the prompt. -/
def renderHit (c : Chunk) : String :=
  "SOURCE: " ++ c.source ++ " (Page " ++ toString c.page ++ ")\nCONTENT: "
    ++ c.text ++ "\n\n"

/-- The accumulated `vector_text` block. -/
def vectorText : List (Chunk × Rat) → String
  | [] => ""
  | (c, _) :: rest => renderHit c ++ vectorText rest

/-- Fixed prompt segment before the graph block. -/
def promptP1 : String :=
  "You are an intelligent research assistant. Answer the question using the provided context.\n\n=== KNOWLEDGE GRAPH CONTEXT (Relationships & Entities) ===\n"

/-- Fixed prompt segment between the graph block and the excerpt block. -/
def promptP2 : String :=
  "\n\n=== DOCUMENT EXCERPTS (Detailed Text & Data) ===\n"

/-- Fixed prompt segment between the excerpt block and the question. -/
def promptP3 : String := "\n\n---\nQuestion: "

/-- Fixed prompt segment after the question. -/
def promptP4 : String :=
  "\n\nInstructions:\n1. Synthesize information from both the Graph and Documents.\n2. If the Graph provides relationships/connections not explicit in the text, highlight them.\n3. If the answer is not in the context, state that you don\x27t know.\nAnswer:"

/-- The hybrid prompt assembled by `generate_answer` (the string
truthiness tests mirror `graph_context if graph_context else …` and
`vector_text if vector_text else …`). -/
def buildPrompt (question : String) (hits : List (Chunk × Rat))
    (graph_context : String) : String :=
  promptP1
    ++ (if graph_context = "" then "No graph data available." else graph_context)
    ++ promptP2
    ++ (if vectorText hits = "" then "No relevant text found." else vectorText hits)
    ++ promptP3 ++ question ++ promptP4

/-! ## Query rewording (src/core/llm.py `BaseLLMClient.reword_query`,
src/core/pipeline.py `SmartRAG.optimize_query`) -/

/-- Result of one LLM call. -/
structure LLMResponse where
  content : String
  error : Option String := none

/-- Python truthiness of the optional error field. -/
def errTruthy (e : Option String) : Bool :=
  e.getD "" ≠ ""

/-- Strip and remove double quotes (`response.content.strip().replace
('"', '')`). -/
def cleanContent (s : String) : String :=
  String.mk ((strTrim s).data.filter (· ≠ '"'))

/-- `BaseLLMClient.reword_query`, with the LLM's reply for the (possibly
truncated) query passed explicitly: blank queries reword to `""` without
an LLM call; over-long queries are truncated to 2000 characters before
the call; a failed or empty reply falls back to the (post-truncation)
query; otherwise the cleaned reply is returned. -/
def reword_query (original_query : String) (resp : LLMResponse) : String :=
  if strTrim original_query = "" then ""
  else
    let q := if original_query.length > 2000 then
        String.mk (original_query.data.take 2000)
      else original_query
    if errTruthy resp.error || resp.content = "" then q
    else cleanContent resp.content

/-- `SmartRAG.optimize_query` simply delegates to `reword_query`. -/
def optimize_query (query : String) (resp : LLMResponse) : String :=
  reword_query query resp

/-! ## LRU cache of loaded state (src/core/pipeline.py,
`get_cached_state` / `put_cached_state`) -/

/-- Cache capacity (`CACHE_CAPACITY`). -/
def CACHE_CAPACITY : Nat := 500

/-- Move the first entry with the given key to the end, keeping its value
(`OrderedDict.move_to_end`); identity when the key is absent. -/
def moveToEnd {V : Type} : List (String × V) → String → List (String × V)
  | [], _ => []
  | (k0, v0) :: rest, k =>
    if k0 = k then rest ++ [(k0, v0)] else (k0, v0) :: moveToEnd rest k

/-- Update the value stored at an existing key in place, or append a new
entry at the end (`_index_cache[faiss_path] = data`). -/
def setOrAppend {V : Type} : List (String × V) → String → V → List (String × V)
  | [], k, v => [(k, v)]
  | (k0, v0) :: rest, k, v =>
    if k0 = k then (k0, v) :: rest else (k0, v0) :: setOrAppend rest k v

/-- `get_cached_state`: a hit returns the stored tuple and marks the key
most-recently-used; a miss leaves the cache unchanged. -/
def getCachedState {V : Type} (cache : List (String × V)) (k : String) :
    Option V × List (String × V) :=
  match cache.lookup k with
  | some v => (some v, moveToEnd cache k)
  | none => (none, cache)

/-- `put_cached_state`: refresh the key's recency, store the value, and
evict the oldest entry (the front of the order) when the capacity is
exceeded. -/
def putCachedState {V : Type} (cache : List (String × V)) (k : String) (v : V) :
    List (String × V) :=
  let c1 := moveToEnd cache k
  let c2 := setOrAppend c1 k v
  if CACHE_CAPACITY < c2.length then c2.drop 1 else c2

/-! ## State loading (src/core/pipeline.py, `SmartRAG.load_state`) -/

/-- A cached `(index, child_chunks, parent_map)` tuple. -/
structure StateTuple where
  index : Nat → List (Rat × Int)
  child_chunks : List Chunk
  parent_map : List (Nat × Chunk)

/-- The filesystem as the loader sees it. -/
structure Disk where
  hasFile : String → Bool
  readIndex : String → (Nat → List (Rat × Int))
  readChunks : String → List Chunk
  readParents : String → List (Nat × Chunk)

/-- `SmartRAG.load_state` / `_load_state_sync`: serve from the cache when
possible; otherwise require both the index file and the chunks file (a
missing one raises `FileNotFoundError`, modelled as `Except.error`), read
them, read the parent-map file only if it exists (keeping the previous
`parent_map` otherwise), and cache the loaded tuple. Returns the new
pipeline state and the updated cache. -/
def load_state (st : RAGState) (cache : List (String × StateTuple))
    (disk : Disk) (faiss_path chunks_path : String) :
    Except String (RAGState × List (String × StateTuple)) :=
  match getCachedState cache faiss_path with
  | (some t, cache1) => .ok (⟨some t.index, t.child_chunks, t.parent_map⟩, cache1)
  | (none, _) =>
    if !disk.hasFile faiss_path || !disk.hasFile chunks_path then
      .error ("Index files missing: " ++ faiss_path ++ " or " ++ chunks_path)
    else
      let index := disk.readIndex faiss_path
      let chunks := disk.readChunks chunks_path
      let parent_path := strReplace chunks_path "chunks_" "parents_"
      let pmap := if disk.hasFile parent_path then disk.readParents parent_path
        else st.parent_map
      .ok (⟨some index, chunks, pmap⟩,
        putCachedState cache faiss_path ⟨index, chunks, pmap⟩)

/-! ## Concrete states used by scenario conjuncts and witnesses -/

/-- The shared parent of the five-children dedup scenario. -/
def scenarioParent : Chunk :=
  { text := "parent text", source := "doc.md", page := 1, chunk_id := 0,
    is_parent := true, meta_index := some 0 }

/-- The i-th of five children sharing `scenarioParent`. -/
def scenarioChild (i : Nat) : Chunk :=
  { text := "child", source := "doc.md", page := 1, chunk_id := i + 1,
    parent_id := some 0 }

/-- An index over the five children in which a query matches all five (in
increasing distance order); positions beyond the five stored vectors are
padded with `-1`, as FAISS does for an underfull index. -/
def scenarioIndex : Nat → List (Rat × Int) := fun k =>
  [(1, 0), (2, 1), (3, 2), (4, 3), (5, 4)] ++
    List.replicate (k - 5) ((340282346638528859811704183484516925440 : Rat), (-1 : Int))

/-- Pipeline state of the five-children dedup scenario. -/
def scenarioFive : RAGState :=
  ⟨some scenarioIndex, (List.range 5).map scenarioChild, [(0, scenarioParent)]⟩

/-- The i-th parent of a three-hit scenario document. -/
def docParent (i : Nat) (src : String) : Chunk :=
  { text := "p", source := src, page := 1, chunk_id := 2 * i,
    is_parent := true, meta_index := some i }

/-- The single child of the i-th parent of a scenario document. -/
def docChild (i : Nat) (src : String) : Chunk :=
  { text := "c", source := src, page := 1, chunk_id := 2 * i + 1,
    parent_id := some (2 * i) }

/-- A scenario document whose three children match at the given
distances. -/
def docState (src : String) (ds : List Rat) : RAGState :=
  ⟨some (fun _ => ds.zip [(0 : Int), 1, 2]),
   (List.range 3).map (fun i => docChild i src),
   (List.range 3).map (fun i => (2 * i, docParent i src))⟩

/-- First document of the multi-doc aggregation scenario. -/
def docA : RAGState := docState "a.md" [1, 2, 6]

/-- Second document of the multi-doc aggregation scenario. -/
def docB : RAGState := docState "b.md" [3, 4, 5]

/-! ## Shared helper lemmas -/

theorem containsSeg_refl (s : String) : ContainsSeg s s :=
  ⟨[], [], by simp⟩

theorem containsSeg_appendL {a m : String} (h : ContainsSeg a m) (b : String) :
    ContainsSeg (a ++ b) m := by
  obtain ⟨pre, post, hp⟩ := h
  exact ⟨pre, post ++ b.data, by rw [String.data_append, hp]; simp⟩

theorem containsSeg_appendR {b m : String} (a : String) (h : ContainsSeg b m) :
    ContainsSeg (a ++ b) m := by
  obtain ⟨pre, post, hp⟩ := h
  exact ⟨a.data ++ pre, post, by rw [String.data_append, hp]; simp⟩

theorem containsSeg_trans {a b c : String} (h1 : ContainsSeg a b)
    (h2 : ContainsSeg b c) : ContainsSeg a c := by
  obtain ⟨p1, q1, e1⟩ := h1
  obtain ⟨p2, q2, e2⟩ := h2
  exact ⟨p1 ++ p2, q2 ++ q1, by rw [e1, e2]; simp⟩

theorem lookup_mem {α β : Type} [BEq α] [LawfulBEq α] {l : List (α × β)}
    {k : α} {v : β} (h : l.lookup k = some v) : (k, v) ∈ l := by
  induction l with
  | nil => simp [List.lookup] at h
  | cons e rest ih =>
    obtain ⟨k0, v0⟩ := e
    simp only [List.lookup] at h
    split at h
    case h_1 heq =>
      injection h with hv
      have hk : k = k0 := eq_of_beq heq
      subst hk
      rw [← hv]
      exact List.mem_cons_self _ _
    case h_2 => exact List.mem_cons_of_mem _ (ih h)

theorem lookup_append_of_some {α β : Type} [BEq α] {l1 l2 : List (α × β)}
    {k : α} {v : β} (h : l1.lookup k = some v) : (l1 ++ l2).lookup k = some v := by
  induction l1 with
  | nil => simp [List.lookup] at h
  | cons e rest ih =>
    obtain ⟨k0, v0⟩ := e
    simp only [List.lookup, List.cons_append] at h ⊢
    split at h
    case h_1 => exact h
    case h_2 => exact ih h

theorem lookup_append_fresh {α β : Type} [BEq α] [LawfulBEq α]
    {l : List (α × β)} {k : α} {v : β} (h : ∀ kv ∈ l, kv.1 ≠ k) :
    (l ++ [(k, v)]).lookup k = some v := by
  induction l with
  | nil => simp [List.lookup]
  | cons e rest ih =>
    obtain ⟨k0, v0⟩ := e
    have hne : k0 ≠ k := h (k0, v0) (by simp)
    simp only [List.cons_append, List.lookup]
    have : (k == k0) = false := beq_eq_false_iff_ne.mpr (fun he => hne he.symm)
    rw [this]
    exact ih (fun kv hkv => h kv (List.mem_cons_of_mem _ hkv))

theorem except_ok_of_toOption {ε α : Type} {x : Except ε α} {a : α}
    (h : x.toOption = some a) : x = .ok a := by
  cases x with
  | ok v =>
    have : v = a := by simpa [Except.toOption] using h
    rw [this]
  | error e => simp [Except.toOption] at h

theorem mem_of_getLastQ {α : Type} {l : List α} {a : α}
    (h : l.getLast? = some a) : a ∈ l := by
  cases l with
  | nil => simp at h
  | cons x t =>
    rw [List.getLast?_eq_getLast _ (by simp)] at h
    injection h with h
    rw [← h]
    exact List.getLast_mem _

/-! ## Claim theorems -/

/-- C5: a document whose text exceeds the configured maximum size is
rejected with the size-limit error before any chunking happens (no chunks
are produced), and an empty document yields empty outputs instead of an
error. -/
theorem process_size_limit_empty :
    (∀ (ck : Chunker) (text source : String),
      MAX_DOCUMENT_SIZE_CHARS < text.length →
        process ck text source = .error "Document too large to process safely.") ∧
    (∀ (ck : Chunker) (source : String), process ck "" source = .ok ([], [])) := by
  constructor
  · intro ck text source h
    have hne : text ≠ "" := by
      intro he
      rw [he] at h
      exact absurd h (by decide)
    unfold process
    rw [if_neg hne, if_pos h]
  · intro ck source
    rfl

/-- A document one character over the limit. -/
def bigDoc : String := String.mk (List.replicate (MAX_DOCUMENT_SIZE_CHARS + 1) 'a')

/-- Witness for C5 at a concrete oversized document and the empty
document. -/
theorem process_size_limit_empty_witness :
    MAX_DOCUMENT_SIZE_CHARS < bigDoc.length ∧
    process defaultChunker bigDoc "big.md" =
      .error "Document too large to process safely." ∧
    process defaultChunker "" "big.md" = .ok ([], []) := by
  have hlen : bigDoc.length = MAX_DOCUMENT_SIZE_CHARS + 1 := by
    show (List.replicate (MAX_DOCUMENT_SIZE_CHARS + 1) 'a').length = _
    exact List.length_replicate _ _
  exact ⟨by omega, process_size_limit_empty.1 _ _ _ (by omega),
    process_size_limit_empty.2 _ _⟩

/-- C6 (amended): for every query whose stripped form is non-empty and
whose length is at most 2000 characters, a failed or empty LLM reword
reply makes `reword_query` (hence `optimize_query`) return the original,
unmodified query. -/
theorem reword_fail_open_bounded :
    ∀ (q : String) (resp : LLMResponse),
      strTrim q ≠ "" → q.length ≤ 2000 →
      (errTruthy resp.error || resp.content = "") = true →
      reword_query q resp = q ∧ optimize_query q resp = q := by
  intro q resp ht hlen hfail
  have h1 : reword_query q resp = q := by
    simp [reword_query, ht, hfail, show ¬(2000 < q.length) by omega]
  exact ⟨h1, h1⟩

/-- Witness for C6 at a concrete short query and a failing reply. -/
theorem reword_fail_open_bounded_witness :
    strTrim "what is AIRBud" ≠ "" ∧ ("what is AIRBud" : String).length ≤ 2000 ∧
    (errTruthy (some "boom") || ("" : String) = "") = true ∧
    optimize_query "what is AIRBud" ⟨"", some "boom"⟩ = "what is AIRBud" :=
  ⟨by decide, by decide, by decide,
    (reword_fail_open_bounded "what is AIRBud" ⟨"", some "boom"⟩
      (by decide) (by decide) (by decide)).2⟩

/-- A query one character over the reword truncation limit. -/
def bigQuery : String := String.mk (List.replicate 2001 'a')

/-- A failing LLM reply. -/
def failResp : LLMResponse := ⟨"", some "API error"⟩

/-- Counterexample to C6 as stated: for an over-long query, a failing
reword call returns the query truncated to 2000 characters, not the
original, unmodified query. -/
theorem reword_truncation_counterexample :
    optimize_query bigQuery failResp = String.mk (List.replicate 2000 'a') ∧
    optimize_query bigQuery failResp ≠ bigQuery := by
  have hdata : bigQuery.data = List.replicate 2001 'a' := rfl
  have htrim : strTrim bigQuery = bigQuery := by
    show String.mk (((bigQuery.data.dropWhile Char.isWhitespace).reverse.dropWhile
      Char.isWhitespace).reverse) = bigQuery
    rw [hdata, List.dropWhile_replicate, if_neg (by decide), List.reverse_replicate,
      List.dropWhile_replicate, if_neg (by decide), List.reverse_replicate]
    rfl
  have hne : strTrim bigQuery ≠ "" := by
    rw [htrim]
    intro h
    have h2 := congrArg String.data h
    rw [hdata] at h2
    have h3 := congrArg List.length h2
    rw [List.length_replicate] at h3
    have h4 : ("" : String).data = [] := rfl
    rw [h4] at h3
    exact absurd h3 (by decide)
  have hlen : bigQuery.length = 2001 := by
    show (List.replicate 2001 'a').length = 2001
    exact List.length_replicate _ _
  have herr : errTruthy failResp.error = true := by decide
  have hmin : min 2000 2001 = 2000 := by decide
  have hres : optimize_query bigQuery failResp = String.mk (List.replicate 2000 'a') := by
    unfold optimize_query reword_query
    rw [if_neg hne]
    dsimp only
    rw [if_pos (show bigQuery.length > 2000 by omega)]
    rw [herr, Bool.true_or, if_pos rfl]
    rw [hdata, List.take_replicate]
    rw [show (2000 ⊓ 2001) = 2000 from hmin]
  refine ⟨hres, ?_⟩
  rw [hres]
  intro h
  have h2 := congrArg (fun s => s.data.length) h
  have h3 : (List.replicate 2000 'a').length = bigQuery.data.length := h2
  rw [hdata, List.length_replicate, List.length_replicate] at h3
  exact absurd h3 (by decide)

/-- C7: with no cached entry, loading when exactly one of the three
persisted artifacts (index file, child-chunk list file, parent-map file)
is present raises the `FileNotFoundError`-equivalent hard failure. -/
theorem load_state_single_artifact_error :
    ∀ (st : RAGState) (cache : List (String × StateTuple)) (disk : Disk)
      (fp cp : String),
      cache.lookup fp = none →
      ((disk.hasFile fp = true ∧ disk.hasFile cp = false ∧
          disk.hasFile (strReplace cp "chunks_" "parents_") = false) ∨
        (disk.hasFile fp = false ∧ disk.hasFile cp = true ∧
          disk.hasFile (strReplace cp "chunks_" "parents_") = false) ∨
        (disk.hasFile fp = false ∧ disk.hasFile cp = false ∧
          disk.hasFile (strReplace cp "chunks_" "parents_") = true)) →
      load_state st cache disk fp cp =
        .error ("Index files missing: " ++ fp ++ " or " ++ cp) := by
  intro st cache disk fp cp hmiss hone
  rcases hone with ⟨h1, h2, _⟩ | ⟨h1, h2, _⟩ | ⟨h1, h2, _⟩ <;>
    simp [load_state, getCachedState, hmiss, h1, h2]

/-- A disk holding only the parent-map artifact. -/
def parentsOnlyDisk : Disk :=
  ⟨fun p => p == "parents_7.pkl", fun _ => fun _ => [], fun _ => [], fun _ => []⟩

/-- An unloaded pipeline. -/
def emptyState : RAGState := ⟨none, [], []⟩

/-- Witness for C7: only the parent-map file exists, and the load fails
hard. -/
theorem load_state_single_artifact_error_witness :
    ([] : List (String × StateTuple)).lookup "index_7.faiss" = none ∧
    parentsOnlyDisk.hasFile "index_7.faiss" = false ∧
    parentsOnlyDisk.hasFile "chunks_7.pkl" = false ∧
    parentsOnlyDisk.hasFile (strReplace "chunks_7.pkl" "chunks_" "parents_") = true ∧
    load_state emptyState [] parentsOnlyDisk "index_7.faiss" "chunks_7.pkl" =
      .error ("Index files missing: " ++ "index_7.faiss" ++ " or " ++ "chunks_7.pkl") :=
  ⟨rfl, by decide, by decide, by decide,
    load_state_single_artifact_error emptyState [] parentsOnlyDisk
      "index_7.faiss" "chunks_7.pkl" rfl
      (Or.inr (Or.inr ⟨by decide, by decide, by decide⟩))⟩

theorem renderHit_data_ne (c : Chunk) : (renderHit c).data ≠ [] := by
  simp only [renderHit, String.data_append]
  intro h
  have h2 := congrArg List.length h
  simp [List.length_append] at h2

theorem vectorText_eq_empty_iff (hits : List (Chunk × Rat)) :
    vectorText hits = "" ↔ hits = [] := by
  cases hits with
  | nil => simp [vectorText]
  | cons hd tl =>
    obtain ⟨c, d⟩ := hd
    constructor
    · intro h
      have h2 := congrArg String.data h
      rw [show vectorText ((c, d) :: tl) = renderHit c ++ vectorText tl from rfl,
        String.data_append] at h2
      have h3 : ("" : String).data = [] := rfl
      rw [h3] at h2
      exact absurd (List.append_eq_nil.mp h2).1 (renderHit_data_ne c)
    · intro h
      exact absurd h (by simp)

theorem vectorText_contains :
    ∀ (hits : List (Chunk × Rat)) (p : Chunk × Rat), p ∈ hits →
      ContainsSeg (vectorText hits) (renderHit p.1) := by
  intro hits
  induction hits with
  | nil => intro p hp; simp at hp
  | cons hd tl ih =>
    intro p hp
    obtain ⟨c, d⟩ := hd
    rw [show vectorText ((c, d) :: tl) = renderHit c ++ vectorText tl from rfl]
    rcases List.mem_cons.mp hp with h | h
    · rw [h]
      exact containsSeg_appendL (containsSeg_refl _) _
    · exact containsSeg_appendR _ (ih p h)

/-- C8: the assembled prompt contains every vector hit rendered as its
`SOURCE: <source> (Page <page>)\nCONTENT: <text>` block (blank-line
separated, as built into `renderHit`/`vectorText`), contains the graph
context when it is non-empty and the explicit no-graph-data placeholder
when it is empty, contains the explicit no-relevant-text placeholder
exactly when there are no vector hits (with non-empty hits the excerpt
slot holds the concatenated hit blocks instead), and contains the literal
question. -/
theorem generate_answer_prompt_content :
    ∀ (q : String) (hits : List (Chunk × Rat)) (graph : String),
      (∀ p ∈ hits, ContainsSeg (buildPrompt q hits graph) (renderHit p.1)) ∧
      (graph ≠ "" → ContainsSeg (buildPrompt q hits graph) graph) ∧
      (graph = "" →
        ContainsSeg (buildPrompt q hits graph) "No graph data available.") ∧
      (hits = [] →
        ContainsSeg (buildPrompt q hits graph) "No relevant text found.") ∧
      (hits ≠ [] → buildPrompt q hits graph =
        promptP1 ++ (if graph = "" then "No graph data available." else graph)
          ++ promptP2 ++ vectorText hits ++ promptP3 ++ q ++ promptP4) ∧
      ContainsSeg (buildPrompt q hits graph) q := by
  intro q hits graph
  have hb : buildPrompt q hits graph =
      promptP1 ++ (if graph = "" then "No graph data available." else graph)
        ++ promptP2
        ++ (if vectorText hits = "" then "No relevant text found."
            else vectorText hits)
        ++ promptP3 ++ q ++ promptP4 := rfl
  have hG : ContainsSeg (buildPrompt q hits graph)
      (if graph = "" then "No graph data available." else graph) := by
    rw [hb]
    exact containsSeg_appendL (containsSeg_appendL (containsSeg_appendL
      (containsSeg_appendL (containsSeg_appendL
        (containsSeg_appendR promptP1 (containsSeg_refl _)) promptP2) _)
      promptP3) q) promptP4
  have hV : ContainsSeg (buildPrompt q hits graph)
      (if vectorText hits = "" then "No relevant text found."
        else vectorText hits) := by
    rw [hb]
    exact containsSeg_appendL (containsSeg_appendL (containsSeg_appendL
      (containsSeg_appendR _ (containsSeg_refl _)) promptP3) q) promptP4
  have hq : ContainsSeg (buildPrompt q hits graph) q := by
    rw [hb]
    exact containsSeg_appendL (containsSeg_appendR _ (containsSeg_refl q))
      promptP4
  refine ⟨?_, ?_, ?_, ?_, ?_, hq⟩
  · intro p hp
    have hvne : vectorText hits ≠ "" :=
      fun h => (List.ne_nil_of_mem hp) ((vectorText_eq_empty_iff hits).mp h)
    rw [if_neg hvne] at hV
    exact containsSeg_trans hV (vectorText_contains hits p hp)
  · intro hg
    rw [if_neg hg] at hG
    exact hG
  · intro hg
    rw [if_pos hg] at hG
    exact hG
  · intro hnil
    rw [if_pos ((vectorText_eq_empty_iff hits).mpr hnil)] at hV
    exact hV
  · intro hne
    rw [hb, if_neg (fun h => hne ((vectorText_eq_empty_iff hits).mp h))]

/-- A hit used by the C8 witness. -/
def witHit : Chunk :=
  { text := "lorem ipsum", source := "w.md", page := 3, chunk_id := 0,
    is_parent := true }

/-- Witness for C8 at a concrete question, hit list and graph context. -/
theorem generate_answer_prompt_content_witness :
    ((witHit, (1 : Rat)) ∈ [(witHit, (1 : Rat))]) ∧
    ("graph facts" : String) ≠ "" ∧
    ContainsSeg (buildPrompt "why?" [(witHit, 1)] "graph facts") (renderHit witHit) ∧
    ContainsSeg (buildPrompt "why?" [(witHit, 1)] "graph facts") "graph facts" ∧
    ContainsSeg (buildPrompt "why?" [] "") "No graph data available." ∧
    ContainsSeg (buildPrompt "why?" [] "") "No relevant text found." ∧
    ContainsSeg (buildPrompt "why?" [(witHit, 1)] "graph facts") "why?" :=
  ⟨List.mem_singleton.mpr rfl, by decide,
    (generate_answer_prompt_content "why?" [(witHit, 1)] "graph facts").1
      (witHit, 1) (List.mem_singleton.mpr rfl),
    (generate_answer_prompt_content "why?" [(witHit, 1)] "graph facts").2.1
      (by decide),
    (generate_answer_prompt_content "why?" [] "").2.2.1 rfl,
    (generate_answer_prompt_content "why?" [] "").2.2.2.1 rfl,
    (generate_answer_prompt_content "why?" [(witHit, 1)] "graph facts").2.2.2.2.2⟩

theorem moveToEnd_length {V : Type} (c : List (String × V)) (k : String) :
    (moveToEnd c k).length = c.length := by
  induction c with
  | nil => rfl
  | cons e rest ih =>
    obtain ⟨k0, v0⟩ := e
    simp only [moveToEnd]
    split
    · simp
    · simp [ih]

theorem setOrAppend_length_le {V : Type} (c : List (String × V)) (k : String)
    (v : V) : (setOrAppend c k v).length ≤ c.length + 1 := by
  induction c with
  | nil => simp [setOrAppend]
  | cons e rest ih =>
    obtain ⟨k0, v0⟩ := e
    simp only [setOrAppend]
    split
    · simp
    · simpa using Nat.succ_le_succ ih

theorem moveToEnd_lookup_none {V : Type} {c : List (String × V)} {k : String}
    (h : c.lookup k = none) : moveToEnd c k = c := by
  induction c with
  | nil => rfl
  | cons e rest ih =>
    obtain ⟨k0, v0⟩ := e
    simp only [List.lookup] at h
    split at h
    case h_1 => exact absurd h (by simp)
    case h_2 heq =>
      have hne : k0 ≠ k := fun hh => (ne_of_beq_false heq) hh.symm
      simp [moveToEnd, hne, ih h]

theorem setOrAppend_lookup_none {V : Type} {c : List (String × V)} {k : String}
    (h : c.lookup k = none) (v : V) : setOrAppend c k v = c ++ [(k, v)] := by
  induction c with
  | nil => rfl
  | cons e rest ih =>
    obtain ⟨k0, v0⟩ := e
    simp only [List.lookup] at h
    split at h
    case h_1 => exact absurd h (by simp)
    case h_2 heq =>
      have hne : k0 ≠ k := fun hh => (ne_of_beq_false heq) hh.symm
      simp [setOrAppend, hne, ih h]

theorem moveToEnd_getLast {V : Type} {c : List (String × V)} {k : String}
    {v : V} (h : c.lookup k = some v) :
    (moveToEnd c k).getLast? = some (k, v) := by
  induction c with
  | nil => simp [List.lookup] at h
  | cons e rest ih =>
    obtain ⟨k0, v0⟩ := e
    simp only [List.lookup] at h
    split at h
    case h_1 heq =>
      injection h with hv
      have hk : k = k0 := eq_of_beq heq
      simp only [moveToEnd, if_pos hk.symm]
      rw [List.getLast?_concat, hk, hv]
    case h_2 heq =>
      have hne : k0 ≠ k := fun hh => (ne_of_beq_false heq) hh.symm
      simp only [moveToEnd, if_neg hne]
      have htail := ih h
      cases hml : moveToEnd rest k with
      | nil => rw [hml] at htail; simp at htail
      | cons a t =>
        rw [hml] at htail
        rw [List.getLast?_cons_cons]
        exact htail

theorem putCachedState_length_le {V : Type} (cache : List (String × V))
    (k : String) (v : V) (hle : cache.length ≤ CACHE_CAPACITY) :
    (putCachedState cache k v).length ≤ CACHE_CAPACITY := by
  unfold putCachedState
  dsimp only
  have l1 := moveToEnd_length cache k
  have l2 := setOrAppend_length_le (moveToEnd cache k) k v
  split
  case isTrue h => rw [List.length_drop]; omega
  case isFalse h => omega

/-- C9: every `put` keeps the cache within the bounded capacity (stated
both as preservation and over a whole insertion sequence from the empty
cache), a `get` hit marks its key most-recently-used (the entry moves to
the end, the order's MRU position, preserving size), and when a `put` of a
fresh key exceeds the bound, the entry evicted is exactly the front —
least-recently-used — entry. -/
theorem state_cache_lru :
    (∀ (V : Type) (cache : List (String × V)) (k : String) (v : V),
      cache.length ≤ CACHE_CAPACITY →
        (putCachedState cache k v).length ≤ CACHE_CAPACITY) ∧
    (∀ (V : Type) (ops : List (String × V)),
      (ops.foldl (fun c kv => putCachedState c kv.1 kv.2)
        ([] : List (String × V))).length ≤ CACHE_CAPACITY) ∧
    (∀ (V : Type) (cache : List (String × V)) (k : String) (v : V),
      cache.lookup k = some v →
        (getCachedState cache k).1 = some v ∧
        ((getCachedState cache k).2).getLast? = some (k, v) ∧
        ((getCachedState cache k).2).length = cache.length) ∧
    (∀ (V : Type) (cache : List (String × V)) (k : String) (v : V),
      cache.length = CACHE_CAPACITY → cache.lookup k = none →
        putCachedState cache k v = cache.drop 1 ++ [(k, v)]) := by
  refine ⟨fun V => putCachedState_length_le, ?_, ?_, ?_⟩
  · intro V ops
    have gen : ∀ (l : List (String × V)) (c : List (String × V)),
        c.length ≤ CACHE_CAPACITY →
        (l.foldl (fun c kv => putCachedState c kv.1 kv.2) c).length
          ≤ CACHE_CAPACITY := by
      intro l
      induction l with
      | nil => intro c hc; exact hc
      | cons kv rest ih =>
        intro c hc
        exact ih _ (putCachedState_length_le c kv.1 kv.2 hc)
    exact gen ops [] (by simp [CACHE_CAPACITY])
  · intro V cache k v h
    refine ⟨?_, ?_, ?_⟩
    · simp [getCachedState, h]
    · simp only [getCachedState, h]
      exact moveToEnd_getLast h
    · simp only [getCachedState, h]
      exact moveToEnd_length cache k
  · intro V cache k v hlen hnone
    unfold putCachedState
    dsimp only
    rw [moveToEnd_lookup_none hnone, setOrAppend_lookup_none hnone v]
    rw [if_pos (by rw [List.length_append]; simp [hlen])]
    exact List.drop_append_of_le_length (by rw [hlen]; decide)

/-- A full cache of 500 entries. -/
def fullCache : List (String × Nat) := List.replicate 500 ("a", 0)

theorem fullCache_lookup_none :
    ∀ n : Nat, ((List.replicate n (("a" : String), 0)).lookup "k") = none := by
  intro n
  induction n with
  | zero => rfl
  | succ n ih =>
    rw [List.replicate_succ]
    simp only [List.lookup]
    rw [show (("k" : String) == "a") = false from by decide]
    exact ih

/-- Witness for C9: capacity preservation, MRU marking on a get hit, and
oldest-first eviction, at concrete caches. -/
theorem state_cache_lru_witness :
    fullCache.length ≤ CACHE_CAPACITY ∧
    (putCachedState fullCache "k" 7).length ≤ CACHE_CAPACITY ∧
    (([("a", 1), ("b", 2)] : List (String × Nat)).lookup "a" = some 1) ∧
    ((getCachedState ([("a", 1), ("b", 2)] : List (String × Nat)) "a").2.getLast?
      = some ("a", 1)) ∧
    fullCache.length = CACHE_CAPACITY ∧ fullCache.lookup "k" = none ∧
    putCachedState fullCache "k" 7 = fullCache.drop 1 ++ [("k", 7)] := by
  have hlen : fullCache.length = 500 := by
    show (List.replicate 500 (("a" : String), 0)).length = 500
    exact List.length_replicate _ _
  have hcap : fullCache.length = CACHE_CAPACITY := by
    rw [hlen]; rfl
  have hnone : fullCache.lookup "k" = none := fullCache_lookup_none 500
  refine ⟨by rw [hcap], putCachedState_length_le _ _ _ (by rw [hcap]),
    by decide, (state_cache_lru.2.2.1 Nat [("a", 1), ("b", 2)] "a" 1
      (by decide)).2.1,
    hcap, hnone, state_cache_lru.2.2.2 Nat fullCache "k" 7 hcap hnone⟩

/-- A bounds-checked candidate dereferences a real child chunk. -/
theorem valid_candidate_mem {cc : List Chunk} {idx : Int}
    (hval : ¬(idx < 0 ∨ (cc.length : Int) ≤ idx)) :
    cc.getD idx.toNat dummyChunk ∈ cc := by
  push_neg at hval
  have hlt : idx.toNat < cc.length := by omega
  rw [List.getD_eq_getElem _ _ hlt]
  exact List.getElem_mem hlt

theorem searchLoop_mem (cc : List Chunk) (pm : List (Nat × Chunk)) (k : Nat) :
    ∀ (cands : List (Rat × Int)) (res : List (Chunk × Rat)) (seen : List Nat),
      (∀ p ∈ res, p.1 ∈ cc ∨ ∃ pid, (pid, p.1) ∈ pm) →
      ∀ p ∈ searchLoop cc pm k cands res seen,
        p.1 ∈ cc ∨ ∃ pid, (pid, p.1) ∈ pm := by
  intro cands
  induction cands with
  | nil => intro res seen hres p hp; exact hres p hp
  | cons hd rest ih =>
    intro res seen hres p hp
    obtain ⟨dist, idx⟩ := hd
    by_cases hval : idx < 0 ∨ (cc.length : Int) ≤ idx
    · rw [show searchLoop cc pm k ((dist, idx) :: rest) res seen =
          searchLoop cc pm k rest res seen from by
        simp only [searchLoop, if_pos hval]] at hp
      exact ih res seen hres p hp
    · have hchildmem := valid_candidate_mem hval
      simp only [searchLoop, if_neg hval] at hp
      set child := cc.getD idx.toNat dummyChunk with hchild
      have hstep : ∀ (st : List (Chunk × Rat) × List Nat),
          st = (match child.parent_id with
            | some pid =>
              match pm.lookup pid with
              | some parent =>
                if pid ∈ seen then (res, seen)
                else (res ++ [(parent, dist)], seen ++ [pid])
              | none => (res ++ [(child, dist)], seen)
            | none => (res ++ [(child, dist)], seen)) →
          ∀ q ∈ st.1, q.1 ∈ cc ∨ ∃ pid, (pid, q.1) ∈ pm := by
        intro st hsteq q hq
        rcases hpid : child.parent_id with _ | pid
        · rw [hpid] at hsteq
          dsimp only at hsteq
          subst hsteq
          rcases List.mem_append.mp hq with h | h
          · exact hres q h
          · rw [List.mem_singleton.mp h]
            exact Or.inl hchildmem
        · rw [hpid] at hsteq
          dsimp only at hsteq
          rcases hlk : pm.lookup pid with _ | parent
          · rw [hlk] at hsteq
            dsimp only at hsteq
            subst hsteq
            rcases List.mem_append.mp hq with h | h
            · exact hres q h
            · rw [List.mem_singleton.mp h]
              exact Or.inl hchildmem
          · rw [hlk] at hsteq
            dsimp only at hsteq
            by_cases hseen : pid ∈ seen
            · rw [if_pos hseen] at hsteq
              subst hsteq
              exact hres q hq
            · rw [if_neg hseen] at hsteq
              subst hsteq
              rcases List.mem_append.mp hq with h | h
              · exact hres q h
              · rw [List.mem_singleton.mp h]
                exact Or.inr ⟨pid, lookup_mem hlk⟩
      split at hp
      · exact hstep _ rfl p hp
      · exact ih _ _ (hstep _ rfl) p hp

/-- C10: search returns the empty list when no index is loaded or the
child-chunk list is empty (the index is never consulted), every emitted
chunk is a real element of the child list or the parent map (no
out-of-bounds dereference, even when the index returns fewer than
`top_k * 3` candidates), and a candidate whose position is negative or
not below the child-list length is skipped outright. -/
theorem search_candidate_safety :
    (∀ (st : RAGState) (k : Nat), st.index = none → search st k = []) ∧
    (∀ (st : RAGState) (k : Nat), st.child_chunks = [] → search st k = []) ∧
    (∀ (st : RAGState) (k : Nat), ∀ p ∈ search st k,
      p.1 ∈ st.child_chunks ∨ ∃ pid, (pid, p.1) ∈ st.parent_map) ∧
    (∀ (cc : List Chunk) (pm : List (Nat × Chunk)) (k : Nat) (d : Rat) (i : Int)
      (rest : List (Rat × Int)) (res : List (Chunk × Rat)) (seen : List Nat),
      i < 0 ∨ (cc.length : Int) ≤ i →
      searchLoop cc pm k ((d, i) :: rest) res seen =
        searchLoop cc pm k rest res seen) := by
  refine ⟨?_, ?_, ?_, ?_⟩
  · intro st k h
    simp [search, h]
  · intro st k h
    rcases hidx : st.index with _ | f
    · simp [search, hidx]
    · simp [search, hidx, h]
  · intro st k p hp
    rcases hidx : st.index with _ | f
    · simp [search, hidx] at hp
    · by_cases hcc : st.child_chunks.isEmpty
      · simp [search, hidx, hcc] at hp
      · rw [show search st k = searchLoop st.child_chunks st.parent_map k
            (f (k * 3)) [] [] from by simp [search, hidx, hcc]] at hp
        exact searchLoop_mem _ _ _ _ _ _ (by simp) p hp
  · intro cc pm k d i rest res seen h
    simp only [searchLoop, if_pos h]

/-- A state with an index but no child chunks. -/
def noChunksState : RAGState := ⟨some scenarioIndex, [], []⟩

/-- Witness for C10: empty results for an unloaded index and an empty
child list, a concrete emitted chunk traced to the parent map, and a
skipped `-1` candidate. -/
theorem search_candidate_safety_witness :
    emptyState.index = none ∧ search emptyState 3 = [] ∧
    noChunksState.child_chunks = [] ∧ search noChunksState 3 = [] ∧
    ((scenarioParent, (1 : Rat)) ∈ search scenarioFive 3 ∧
      ((scenarioParent, (1 : Rat)).1 ∈ scenarioFive.child_chunks ∨
        ∃ pid, (pid, (scenarioParent, (1 : Rat)).1) ∈ scenarioFive.parent_map)) ∧
    (((-1 : Int) < 0 ∨ (scenarioFive.child_chunks.length : Int) ≤ -1) ∧
      searchLoop scenarioFive.child_chunks scenarioFive.parent_map 3
          [((7 : Rat), -1)] [] [] =
        searchLoop scenarioFive.child_chunks scenarioFive.parent_map 3 [] [] []) := by
  refine ⟨rfl, search_candidate_safety.1 emptyState 3 rfl,
    rfl, search_candidate_safety.2.1 noChunksState 3 rfl,
    ⟨by decide, search_candidate_safety.2.2.1 scenarioFive 3 _ (by decide)⟩,
    ⟨Or.inl (by decide), search_candidate_safety.2.2.2 _ _ 3 7 (-1) [] [] []
      (Or.inl (by decide))⟩⟩

/-! C1: parent deduplication. -/

/-- The parent map of a chunking run maps each key to a chunk carrying
that key as its `chunk_id` (decidable form). -/
def keysConsistentB (pm : List (Nat × Chunk)) : Bool :=
  pm.all (fun kv => kv.2.chunk_id == kv.1)

/-- Every child chunk carries a parent id that resolves in the parent map
("parents resolve"). -/
def parentsResolveB (st : RAGState) : Bool :=
  st.child_chunks.all (fun c =>
    match c.parent_id with
    | some pid => (st.parent_map.lookup pid).isSome
    | none => false)

theorem searchLoop_dedup (cc : List Chunk) (pm : List (Nat × Chunk)) (k : Nat)
    (hkeys : ∀ kv ∈ pm, kv.2.chunk_id = kv.1)
    (hres : ∀ c ∈ cc, ∃ pid, c.parent_id = some pid ∧
      (pm.lookup pid).isSome = true) :
    ∀ (cands : List (Rat × Int)) (res : List (Chunk × Rat)) (seen : List Nat),
      res.map (fun p => p.1.chunk_id) = seen → seen.Nodup → res.length < k →
      (searchLoop cc pm k cands res seen).length ≤ k ∧
      ((searchLoop cc pm k cands res seen).map (fun p => p.1.chunk_id)).Nodup := by
  intro cands
  induction cands with
  | nil =>
    intro res seen hmap hnodup hlen
    refine ⟨le_of_lt hlen, ?_⟩
    rw [show searchLoop cc pm k [] res seen = res from rfl, hmap]
    exact hnodup
  | cons hd rest ih =>
    intro res seen hmap hnodup hlen
    obtain ⟨dist, idx⟩ := hd
    by_cases hval : idx < 0 ∨ (cc.length : Int) ≤ idx
    · rw [show searchLoop cc pm k ((dist, idx) :: rest) res seen =
          searchLoop cc pm k rest res seen from by
        simp only [searchLoop, if_pos hval]]
      exact ih res seen hmap hnodup hlen
    · have hchildmem := valid_candidate_mem hval
      obtain ⟨pid, hpid, hsome⟩ := hres _ hchildmem
      obtain ⟨parent, hlk⟩ := Option.isSome_iff_exists.mp hsome
      have hpk : parent.chunk_id = pid := hkeys (pid, parent) (lookup_mem hlk)
      simp only [searchLoop, if_neg hval]
      rw [hpid]
      dsimp only
      rw [hlk]
      dsimp only
      by_cases hseen : pid ∈ seen
      · rw [if_pos hseen]
        dsimp only
        rw [if_neg (by omega : ¬ k ≤ res.length)]
        exact ih res seen hmap hnodup hlen
      · rw [if_neg hseen]
        dsimp only
        have hmap2 : (res ++ [(parent, dist)]).map (fun p => p.1.chunk_id)
            = seen ++ [pid] := by
          rw [List.map_append, hmap]
          simp [hpk]
        have hnodup2 : (seen ++ [pid]).Nodup := by
          simp [List.nodup_append, hnodup, hseen]
        rw [List.length_append]
        split
        next h =>
          constructor
          · simp only [List.length_append, List.length_singleton]
            omega
          · rw [hmap2]
            exact hnodup2
        next h =>
          exact ih _ _ hmap2 hnodup2 (by simp only [List.length_append,
            List.length_singleton] at h ⊢; omega)

/-- C1: over a consistently keyed parent map in which every child's
parent resolves, a search walks the index's candidates in the returned
(increasing-distance) order, emits each resolved parent at most once with
its first hit's distance, never emits two results with the same
`chunk_id`, and stops at `top_k` results; in particular five children
sharing one parent, all matched by the query, yield exactly one result —
the shared parent — for `top_k = 3`. -/
theorem search_parent_dedup :
    (∀ (st : RAGState) (k : Nat), 0 < k → keysConsistentB st.parent_map = true →
      parentsResolveB st = true →
      (search st k).length ≤ k ∧
      ((search st k).map (fun p => p.1.chunk_id)).Nodup) ∧
    search scenarioFive 3 = [(scenarioParent, 1)] := by
  constructor
  · intro st k hk hkeysB hresB
    have hkeys : ∀ kv ∈ st.parent_map, kv.2.chunk_id = kv.1 := by
      intro kv hkv
      exact eq_of_beq (List.all_eq_true.mp hkeysB kv hkv)
    have hres : ∀ c ∈ st.child_chunks, ∃ pid, c.parent_id = some pid ∧
        (st.parent_map.lookup pid).isSome = true := by
      intro c hc
      have := List.all_eq_true.mp hresB c hc
      rcases hpid : c.parent_id with _ | pid
      · rw [hpid] at this; exact absurd this (by simp)
      · rw [hpid] at this; exact ⟨pid, rfl, this⟩
    rcases hidx : st.index with _ | f
    · simp [search, hidx]
    · by_cases hcc : st.child_chunks.isEmpty
      · simp [search, hidx, hcc]
      · rw [show search st k = searchLoop st.child_chunks st.parent_map k
            (f (k * 3)) [] [] from by simp [search, hidx, hcc]]
        exact searchLoop_dedup _ _ k hkeys hres _ [] [] rfl List.nodup_nil hk
  · decide

/-- Witness for C1 at the five-children scenario: the hypotheses hold and
`search` with `top_k = 3` returns one result with a duplicate-free id
list. -/
theorem search_parent_dedup_witness :
    (0 < 3 ∧ keysConsistentB scenarioFive.parent_map = true ∧
      parentsResolveB scenarioFive = true) ∧
    (search scenarioFive 3).length ≤ 3 ∧
    ((search scenarioFive 3).map (fun p => p.1.chunk_id)).Nodup :=
  ⟨⟨by decide, by decide, by decide⟩,
    search_parent_dedup.1 scenarioFive 3 (by decide) (by decide) (by decide)⟩

/-- C2: a collection-level query is each document's `search` fanned out
(per-document `top_k = 3`), concatenated, stably sorted ascending by
distance, and truncated to the global top 5: the output is
distance-sorted, drawn from the per-document results, of length
`min 5 total`; in the two-document scenario the merged list takes 2 hits
from one document and 3 from the other, not 3+3. -/
theorem query_multiple_global_merge :
    (∀ pipelines : List RAGState,
      queryMultiple pipelines 5 =
        (sortByDistance ((pipelines.map (fun p => search p 3)).flatten)).take 5 ∧
      List.Sorted distLe (queryMultiple pipelines 5) ∧
      (∀ p ∈ queryMultiple pipelines 5,
        p ∈ (pipelines.map (fun p => search p 3)).flatten) ∧
      (queryMultiple pipelines 5).length =
        min 5 ((pipelines.map (fun p => search p 3)).flatten).length) ∧
    queryMultiple [docA, docB] 5 =
      [(docParent 0 "a.md", 1), (docParent 1 "a.md", 2), (docParent 0 "b.md", 3),
        (docParent 1 "b.md", 4), (docParent 2 "b.md", 5)] := by
  constructor
  · intro pipelines
    refine ⟨rfl, ?_, ?_, ?_⟩
    · exact List.Pairwise.sublist (List.take_sublist _ _)
        (List.sorted_insertionSort distLe _)
    · intro p hp
      exact (List.perm_insertionSort distLe _).subset
        (List.mem_of_mem_take hp)
    · show (List.take 5
        (sortByDistance ((pipelines.map (fun p => search p 3)).flatten))).length = _
      rw [List.length_take]
      congr 1
      exact (List.perm_insertionSort distLe _).length_eq
  · decide

/-- Witness for C2's membership conjunct at the two-document scenario. -/
theorem query_multiple_global_merge_witness :
    ((docParent 0 "b.md", (3 : Rat)) ∈ queryMultiple [docA, docB] 5) ∧
    (docParent 0 "b.md", (3 : Rat)) ∈
      (([docA, docB].map (fun p => search p 3)).flatten) :=
  ⟨by decide,
    (query_multiple_global_merge.1 [docA, docB]).2.2.1 (docParent 0 "b.md", 3)
      (by decide)⟩

/-! C4: parent containment. -/

/-- A child chunk resolves in a parent map to a parent on the same page
and source whose text contains the child's text. -/
def Resolves (pm : List (Nat × Chunk)) (c : Chunk) : Prop :=
  ∃ pid parent, c.parent_id = some pid ∧ pm.lookup pid = some parent ∧
    parent.page = c.page ∧ parent.source = c.source ∧
    ContainsSeg parent.text c.text

theorem chunkChildren_snd (src : String) (pg pid : Nat) :
    ∀ (ts : List String) (cc : List Chunk) (nid : Nat),
      (chunkChildren src pg pid ts cc nid).2 = nid + ts.length := by
  intro ts
  induction ts with
  | nil => intro cc nid; simp [chunkChildren]
  | cons t rest ih =>
    intro cc nid
    simp only [chunkChildren]
    rw [ih]
    rw [List.length_cons]
    omega

theorem chunkChildren_fst (src : String) (pg pid : Nat) :
    ∀ (ts : List String) (cc : List Chunk) (nid : Nat),
      ∀ c ∈ (chunkChildren src pg pid ts cc nid).1,
        c ∈ cc ∨ (c.page = pg ∧ c.source = src ∧ c.parent_id = some pid ∧
          c.text ∈ ts) := by
  intro ts
  induction ts with
  | nil => intro cc nid c hc; exact Or.inl hc
  | cons t rest ih =>
    intro cc nid c hc
    simp only [chunkChildren] at hc
    rcases ih _ _ c hc with h | h
    · rcases List.mem_append.mp h with h2 | h2
      · exact Or.inl h2
      · rw [List.mem_singleton.mp h2]
        exact Or.inr ⟨rfl, rfl, rfl, by simp⟩
    · exact Or.inr ⟨h.1, h.2.1, h.2.2.1, List.mem_cons_of_mem _ h.2.2.2⟩

theorem chunkParents_resolves (ck : Chunker) (src : String) (pg : Nat)
    (hsub : ∀ t p, p ∈ ck.childSplit t → ContainsSeg t p) :
    ∀ (ts : List String) (pIdx : Nat) (st : ChunkState),
      (∀ kv ∈ st.parent_map, kv.1 < st.nextId) →
      (∀ c ∈ st.child_chunks, Resolves st.parent_map c) →
      (∀ kv ∈ (chunkParents ck src pg ts pIdx st).parent_map,
        kv.1 < (chunkParents ck src pg ts pIdx st).nextId) ∧
      (∀ c ∈ (chunkParents ck src pg ts pIdx st).child_chunks,
        Resolves (chunkParents ck src pg ts pIdx st).parent_map c) := by
  intro ts
  induction ts with
  | nil => intro pIdx st hkb hres; exact ⟨hkb, hres⟩
  | cons t rest ih =>
    intro pIdx st hkb hres
    simp only [chunkParents]
    set pchunk : Chunk :=
      { text := t, source := src, page := pg, chunk_id := st.nextId,
        parent_id := none, is_parent := true, meta_index := some pIdx }
      with hpchunk
    have hnid1 : (chunkChildren src pg st.nextId (ck.childSplit t)
        st.child_chunks (st.nextId + 1)).2
        = st.nextId + 1 + (ck.childSplit t).length := chunkChildren_snd _ _ _ _ _ _
    have hlknew : (st.parent_map ++ [(st.nextId, pchunk)]).lookup st.nextId
        = some pchunk :=
      lookup_append_fresh (fun kv hkv => Nat.ne_of_lt (hkb kv hkv))
    apply ih
    · intro kv hkv
      rcases List.mem_append.mp hkv with h | h
      · have := hkb kv h
        dsimp only
        omega
      · rw [List.mem_singleton.mp h]
        dsimp only
        omega
    · intro c hc
      rcases chunkChildren_fst src pg st.nextId (ck.childSplit t)
          st.child_chunks (st.nextId + 1) c hc with h | h
      · obtain ⟨pid, parent, h1, h2, h3, h4, h5⟩ := hres c h
        exact ⟨pid, parent, h1, lookup_append_of_some h2, h3, h4, h5⟩
      · refine ⟨st.nextId, pchunk, h.2.2.1, hlknew, ?_, ?_, ?_⟩
        · rw [h.1]
        · rw [h.2.1]
        · exact hsub t c.text h.2.2.2

theorem walkParts_resolves (ck : Chunker) (filename : String)
    (hsub : ∀ t p, p ∈ ck.childSplit t → ContainsSeg t p) :
    ∀ (parts : List String) (curPage : Nat) (st : ChunkState),
      (∀ kv ∈ st.parent_map, kv.1 < st.nextId) →
      (∀ c ∈ st.child_chunks, Resolves st.parent_map c) →
      ∀ c ∈ (walkParts ck filename parts curPage st).child_chunks,
        Resolves (walkParts ck filename parts curPage st).parent_map c := by
  intro parts curPage st
  induction parts, curPage, st using walkParts.induct ck filename with
  | case1 curPage st => intro hkb hres; exact hres
  | case2 part curPage st hmark newPage content rest2 st1 ih =>
    intro hkb hres
    have hred : walkParts ck filename (part :: content :: rest2) curPage st =
        walkParts ck filename rest2 newPage st1 := by
      simp only [walkParts, if_pos hmark]
    rw [hred]
    by_cases hc : strTrim content ≠ ""
    · have hst1 : st1 = chunkPageText ck content filename newPage st :=
        if_pos hc
      have hinv := chunkParents_resolves ck filename newPage hsub
        (ck.parentSplit content) 0 st hkb hres
      rw [hst1]
      rw [hst1] at ih
      exact ih (hinv.1) (hinv.2)
    · have hst1 : st1 = st := if_neg hc
      rw [hst1]
      rw [hst1] at ih
      exact ih hkb hres
  | case3 part curPage st hmark =>
    intro hkb hres
    have hred : walkParts ck filename [part] curPage st = st := by
      simp only [walkParts, if_pos hmark]
    rw [hred]
    exact hres
  | case4 part rest curPage st hmark st1 ih =>
    intro hkb hres
    have hred : walkParts ck filename (part :: rest) curPage st =
        walkParts ck filename rest curPage st1 := by
      simp only [walkParts, if_neg hmark]
    rw [hred]
    by_cases hc : strTrim part ≠ ""
    · have hst1 : st1 = chunkPageText ck part filename curPage st := if_pos hc
      have hinv := chunkParents_resolves ck filename curPage hsub
        (ck.parentSplit part) 0 st hkb hres
      rw [hst1]
      rw [hst1] at ih
      exact ih (hinv.1) (hinv.2)
    · have hst1 : st1 = st := if_neg hc
      rw [hst1]
      rw [hst1] at ih
      exact ih hkb hres

/-- C4: for every child chunk produced by `process` (given that the child
splitter only produces pieces of its input text, the spec's description of
the external recursive splitter up to boundary trimming), the child's
`parent_id` is non-null and resolves in the returned parent map, the
parent shares the child's page and source, and the parent's text contains
the child's text as a contiguous segment. -/
theorem process_parent_containment :
    ∀ (ck : Chunker) (text source : String) (cc : List Chunk)
      (pm : List (Nat × Chunk)) (c : Chunk),
      (∀ t p, p ∈ ck.childSplit t → ContainsSeg t p) →
      process ck text source = .ok (cc, pm) →
      c ∈ cc →
      ∃ pid parent, c.parent_id = some pid ∧ pm.lookup pid = some parent ∧
        parent.page = c.page ∧ parent.source = c.source ∧
        ContainsSeg parent.text c.text := by
  intro ck text source cc pm c hsub hok hc
  unfold process at hok
  split at hok
  · injection hok with h
    injection h with h1 h2
    rw [← h1] at hc
    exact absurd hc (by simp)
  · split at hok
    · exact absurd hok (by simp)
    · injection hok with h
      injection h with h1 h2
      rw [← h1] at hc
      rw [← h2]
      exact walkParts_resolves ck (basename source) hsub (pageSplit text) 0
        ⟨[], [], 0⟩ (by simp) (by simp) c hc

/-- A chunker whose splitters return their input whole (trivially
satisfying the substring property). -/
def idChunker : Chunker := ⟨fun t => [t], fun t => [t]⟩

/-- Expected child list of the C4 witness run. -/
def idChildren : List Chunk :=
  [{ text := "hi", source := "d.md", page := 0, chunk_id := 1,
      parent_id := some 0 }]

/-- Expected parent chunk of the C4 witness run. -/
def idParentChunk : Chunk :=
  { text := "hi", source := "d.md", page := 0, chunk_id := 0,
    is_parent := true, meta_index := some 0 }

/-- Expected parent map of the C4 witness run. -/
def idParents : List (Nat × Chunk) := [(0, idParentChunk)]

/-- Witness for C4 at a concrete document and the identity chunker. -/
theorem process_parent_containment_witness :
    (∀ t p, p ∈ idChunker.childSplit t → ContainsSeg t p) ∧
    process idChunker "hi" "d.md" = .ok (idChildren, idParents) ∧
    idChildren.get ⟨0, by decide⟩ ∈ idChildren ∧
    (∃ pid parent,
      (idChildren.get ⟨0, by decide⟩).parent_id = some pid ∧
      idParents.lookup pid = some parent ∧
      parent.page = (idChildren.get ⟨0, by decide⟩).page ∧
      parent.source = (idChildren.get ⟨0, by decide⟩).source ∧
      ContainsSeg parent.text (idChildren.get ⟨0, by decide⟩).text) := by
  have hsub : ∀ t p, p ∈ idChunker.childSplit t → ContainsSeg t p := by
    intro t p hp
    rw [List.mem_singleton.mp hp]
    exact containsSeg_refl t
  have hok : process idChunker "hi" "d.md" = .ok (idChildren, idParents) :=
    except_ok_of_toOption (by decide)
  exact ⟨hsub, hok, List.get_mem _ _ _,
    process_parent_containment idChunker "hi" "d.md" idChildren idParents _
      hsub hok (List.get_mem _ _ _)⟩

/-! C3: chunk ordering. -/

/-- Creation order of child chunks: page ascending, then parent ordinal
ascending (parents receive counter ids in creation order, so the numeric
`parent_id` order is the parent-ordinal order), then child ordinal
ascending (all ids are assigned from one strictly increasing counter, so
`chunk_id` order is the within-parent creation order). -/
def ordR (a b : Chunk) : Prop :=
  a.page ≤ b.page ∧ a.parent_id.getD 0 ≤ b.parent_id.getD 0 ∧
    a.chunk_id < b.chunk_id

/-- The page markers, in the order the page split produces them, carry
non-decreasing page numbers (mirrors the exact part consumption of
`walkParts`). -/
def walkMono (cur : Nat) : List String → Bool
  | [] => true
  | part :: rest =>
    if isMarker part then
      decide (cur ≤ (parsePage part).getD cur) &&
        (match rest with
          | _ :: rest2 => walkMono ((parsePage part).getD cur) rest2
          | [] => true)
    else walkMono cur rest

theorem chunkChildren_chain (src : String) (pg pid : Nat) :
    ∀ (ts : List String) (cc : List Chunk) (nid : Nat), pid < nid →
      (∀ c ∈ cc, c.page ≤ pg ∧ c.parent_id.getD 0 ≤ pid ∧ c.chunk_id < nid) →
      List.Chain' ordR cc →
      (∀ c ∈ (chunkChildren src pg pid ts cc nid).1,
        c.page ≤ pg ∧ c.parent_id.getD 0 ≤ pid ∧
          c.chunk_id < (chunkChildren src pg pid ts cc nid).2) ∧
      List.Chain' ordR (chunkChildren src pg pid ts cc nid).1 := by
  intro ts
  induction ts with
  | nil =>
    intro cc nid hpid hb hch
    simp only [chunkChildren]
    exact ⟨hb, hch⟩
  | cons t rest ih =>
    intro cc nid hpid hb hch
    simp only [chunkChildren]
    apply ih
    · omega
    · intro c hc
      rcases List.mem_append.mp hc with h | h
      · have := hb c h
        exact ⟨this.1, this.2.1, by omega⟩
      · rw [List.mem_singleton.mp h]
        refine ⟨le_refl _, ?_, ?_⟩
        · simp
        · exact Nat.lt_succ_self _
    · rw [List.chain'_append]
      refine ⟨hch, List.chain'_singleton _, ?_⟩
      intro x hx y hy
      have hxm : x ∈ cc := mem_of_getLastQ (Option.mem_def.mp hx)
      have hbx := hb x hxm
      have hyv := by simpa using hy
      rw [← hyv]
      exact ⟨hbx.1, by simpa using hbx.2.1, hbx.2.2⟩

theorem chunkParents_chain (ck : Chunker) (src : String) (pg : Nat) :
    ∀ (ts : List String) (pIdx : Nat) (st : ChunkState),
      (∀ c ∈ st.child_chunks, c.page ≤ pg ∧
        c.parent_id.getD 0 < st.nextId ∧ c.chunk_id < st.nextId) →
      List.Chain' ordR st.child_chunks →
      (∀ c ∈ (chunkParents ck src pg ts pIdx st).child_chunks,
        c.page ≤ pg ∧
          c.parent_id.getD 0 < (chunkParents ck src pg ts pIdx st).nextId ∧
          c.chunk_id < (chunkParents ck src pg ts pIdx st).nextId) ∧
      List.Chain' ordR (chunkParents ck src pg ts pIdx st).child_chunks ∧
      st.nextId ≤ (chunkParents ck src pg ts pIdx st).nextId := by
  intro ts
  induction ts with
  | nil =>
    intro pIdx st hb hch
    simp only [chunkParents]
    exact ⟨hb, hch, le_refl _⟩
  | cons t rest ih =>
    intro pIdx st hb hch
    simp only [chunkParents]
    have hnid : (chunkChildren src pg st.nextId (ck.childSplit t)
        st.child_chunks (st.nextId + 1)).2
        = st.nextId + 1 + (ck.childSplit t).length := chunkChildren_snd _ _ _ _ _ _
    have hA := chunkChildren_chain src pg st.nextId (ck.childSplit t)
      st.child_chunks (st.nextId + 1) (by omega)
      (fun c hc => by
        have := hb c hc
        exact ⟨this.1, by omega, by omega⟩)
      hch
    have hB := ih (pIdx + 1)
      ⟨st.parent_map ++ [(st.nextId,
        { text := t, source := src, page := pg, chunk_id := st.nextId,
          parent_id := none, is_parent := true, meta_index := some pIdx })],
       (chunkChildren src pg st.nextId (ck.childSplit t) st.child_chunks
         (st.nextId + 1)).1,
       (chunkChildren src pg st.nextId (ck.childSplit t) st.child_chunks
         (st.nextId + 1)).2⟩
      (fun c hc => by
        have := hA.1 c hc
        exact ⟨this.1, by dsimp only; omega, by dsimp only; exact this.2.2⟩)
      hA.2
    exact ⟨hB.1, hB.2.1, by have := hB.2.2; dsimp only at this; omega⟩

theorem walkParts_chain (ck : Chunker) (filename : String) :
    ∀ (parts : List String) (curPage : Nat) (st : ChunkState),
      walkMono curPage parts = true →
      (∀ c ∈ st.child_chunks, c.page ≤ curPage ∧
        c.parent_id.getD 0 < st.nextId ∧ c.chunk_id < st.nextId) →
      List.Chain' ordR st.child_chunks →
      List.Chain' ordR (walkParts ck filename parts curPage st).child_chunks := by
  intro parts curPage st
  induction parts, curPage, st using walkParts.induct ck filename with
  | case1 curPage st => intro _ _ hch; exact hch
  | case2 part curPage st hmark newPage content rest2 st1 ih =>
    intro hmono hb hch
    have hm : (decide (curPage ≤ (parsePage part).getD curPage) &&
        walkMono ((parsePage part).getD curPage) rest2) = true := by
      simpa [walkMono, hmark] using hmono
    obtain ⟨h1, h2⟩ := Bool.and_eq_true_iff.mp hm
    have hle : curPage ≤ newPage := of_decide_eq_true h1
    have hred : walkParts ck filename (part :: content :: rest2) curPage st =
        walkParts ck filename rest2 newPage st1 := by
      simp only [walkParts, if_pos hmark]
    rw [hred]
    by_cases hc : strTrim content ≠ ""
    · have hst1 : st1 = chunkPageText ck content filename newPage st :=
        if_pos hc
      have hinv := chunkParents_chain ck filename newPage
        (ck.parentSplit content) 0 st
        (fun c hcc => by
          have := hb c hcc
          exact ⟨le_trans this.1 hle, this.2.1, this.2.2⟩)
        hch
      rw [hst1]
      rw [hst1] at ih
      exact ih h2 hinv.1 hinv.2.1
    · have hst1 : st1 = st := if_neg hc
      rw [hst1]
      rw [hst1] at ih
      exact ih h2
        (fun c hcc => by
          have := hb c hcc
          exact ⟨le_trans this.1 hle, this.2.1, this.2.2⟩)
        hch
  | case3 part curPage st hmark =>
    intro _ _ hch
    have hred : walkParts ck filename [part] curPage st = st := by
      simp only [walkParts, if_pos hmark]
    rw [hred]
    exact hch
  | case4 part rest curPage st hmark st1 ih =>
    intro hmono hb hch
    have h2 : walkMono curPage rest = true := by
      rw [walkMono.eq_def] at hmono
      dsimp only at hmono
      rwa [if_neg hmark] at hmono
    have hred : walkParts ck filename (part :: rest) curPage st =
        walkParts ck filename rest curPage st1 := by
      simp only [walkParts, if_neg hmark]
    rw [hred]
    by_cases hc : strTrim part ≠ ""
    · have hst1 : st1 = chunkPageText ck part filename curPage st := if_pos hc
      have hinv := chunkParents_chain ck filename curPage
        (ck.parentSplit part) 0 st hb hch
      rw [hst1]
      rw [hst1] at ih
      exact ih h2 hinv.1 hinv.2.1
    · have hst1 : st1 = st := if_neg hc
      rw [hst1]
      rw [hst1] at ih
      exact ih h2 hb hch

/-- C3 (amended): for every input text whose page markers carry
non-decreasing page numbers in text order, the child-chunk list produced
by `process` has monotonically non-decreasing pages and is ordered by
(page ascending, parent ordinal ascending, child ordinal ascending) — the
latter expressed through the strictly increasing id counter, which
assigns parent ids in parent-creation order and child ids in
within-parent creation order. -/
theorem process_children_ordered :
    ∀ (ck : Chunker) (text source : String) (cc : List Chunk)
      (pm : List (Nat × Chunk)),
      walkMono 0 (pageSplit text) = true →
      process ck text source = .ok (cc, pm) →
      List.Chain' (fun a b : Chunk => a.page ≤ b.page) cc ∧
      List.Chain' ordR cc := by
  intro ck text source cc pm hmono hok
  unfold process at hok
  split at hok
  · injection hok with h
    injection h with h1 h2
    rw [← h1]
    exact ⟨by simp, by simp⟩
  · split at hok
    · exact absurd hok (by simp)
    · injection hok with h
      injection h with h1 h2
      rw [← h1]
      have hchain := walkParts_chain ck (basename source) (pageSplit text) 0
        ⟨[], [], 0⟩ hmono (by simp) (by simp)
      exact ⟨List.Chain'.imp (fun a b h => h.1) hchain, hchain⟩

/-- A document whose page markers are out of order. -/
def badText : String := "## Page 2\nalpha## Page 1\nbeta"

/-- First child chunk produced from `badText` (page 2). -/
def badChild1 : Chunk :=
  { text := "alpha", source := "doc.md", page := 2, chunk_id := 1,
    parent_id := some 0 }

/-- Second child chunk produced from `badText` (page 1). -/
def badChild2 : Chunk :=
  { text := "beta", source := "doc.md", page := 1, chunk_id := 3,
    parent_id := some 2 }

set_option maxRecDepth 8000 in
/-- Counterexample to C3 as stated: a document whose markers run page 2
then page 1 produces a child list with pages `[2, 1]`, which is not
monotonically non-decreasing. -/
theorem process_page_order_counterexample :
    (process defaultChunker badText "doc.md").toOption.map Prod.fst =
      some [badChild1, badChild2] ∧
    badChild1.page = 2 ∧ badChild2.page = 1 ∧
    ¬ List.Chain' (fun a b : Chunk => a.page ≤ b.page)
      [badChild1, badChild2] := by
  refine ⟨by decide, rfl, rfl, ?_⟩
  intro h
  rw [List.chain'_cons] at h
  exact absurd h.1 (by decide)

/-- A document with ascending page markers. -/
def goodText : String :=
  "## Page 1\nHello world. This is a test.## Page 2\nSecond page."

/-- First child chunk produced from `goodText`. -/
def goodChild1 : Chunk :=
  { text := "Hello world. This is a test.", source := "doc.md", page := 1,
    chunk_id := 1, parent_id := some 0 }

/-- Second child chunk produced from `goodText`. -/
def goodChild2 : Chunk :=
  { text := "Second page.", source := "doc.md", page := 2, chunk_id := 3,
    parent_id := some 2 }

/-- First parent chunk produced from `goodText`. -/
def goodParent1 : Chunk :=
  { text := "Hello world. This is a test.", source := "doc.md", page := 1,
    chunk_id := 0, is_parent := true, meta_index := some 0 }

/-- Second parent chunk produced from `goodText`. -/
def goodParent2 : Chunk :=
  { text := "Second page.", source := "doc.md", page := 2, chunk_id := 2,
    is_parent := true, meta_index := some 0 }

set_option maxRecDepth 8000 in
/-- Witness for C3 at a concrete two-page document. -/
theorem process_children_ordered_witness :
    walkMono 0 (pageSplit goodText) = true ∧
    process defaultChunker goodText "doc.md" =
      .ok ([goodChild1, goodChild2], [(0, goodParent1), (2, goodParent2)]) ∧
    List.Chain' (fun a b : Chunk => a.page ≤ b.page)
      [goodChild1, goodChild2] ∧
    List.Chain' ordR [goodChild1, goodChild2] := by
  have hok : process defaultChunker goodText "doc.md" =
      .ok ([goodChild1, goodChild2], [(0, goodParent1), (2, goodParent2)]) :=
    except_ok_of_toOption (by decide)
  have hmono : walkMono 0 (pageSplit goodText) = true := by decide
  have h := process_children_ordered defaultChunker goodText "doc.md" _ _
    hmono hok
  exact ⟨hmono, hok, h.1, h.2⟩

end AIRBud
